import Mathlib

/-!
Verification of the re2c graph equivalence checker (`equivcheck.py`).

The Python source is shallowly embedded below.  Conventions used throughout:
  * Python `str` values that hold tokens or labels are embedded as `List Char`
    (Lean `String` operations are opaque to induction, so the character-list
    operations of the Python string API are modelled directly on lists).
  * Python integer character codes are `Nat`; `ord`/`chr` are injective, so a
    character-code set is a `Finset Nat`.
  * Python `set` values are `Finset`; the dictionaries that hold the transition
    function are total functions into `Option` (a missing key is `none`), with
    the fixed key set of the outer dict tracked separately, mirroring
    `transitions = {state: {} for state in states}`.
  * fallible Python code (exceptions) is embedded with `Except`.
-/

set_option maxRecDepth 100000

namespace Equivcheck

/-! ### Character Range Decoder (`parse_char_ranges`, source lines 26-47) -/

/-- Characters removed by Python's `range_str.strip("[]")`. -/
def isBrk (c : Char) : Bool := c = '[' || c = ']'

/-- Embeds `range_str.strip("[]")`: drop the bracket characters from both ends. -/
def stripBrackets (l : List Char) : List Char :=
  ((l.dropWhile isBrk).reverse.dropWhile isBrk).reverse

/-- Embeds `range_str.split("][")`: split on each (leftmost, non-overlapping)
occurrence of the two-character separator, exactly as Python `str.split`. -/
def splitBrk : List Char → List (List Char)
  | [] => [[]]
  | [c] => [[c]]
  | c :: c2 :: rest =>
    if c = ']' ∧ c2 = '[' then [] :: splitBrk rest
    else
      match splitBrk (c2 :: rest) with
      | [] => [[c]]
      | r :: rs => (c :: r) :: rs

/-- Embeds `part.split("-")`: split on every dash, keeping empty pieces. -/
def splitDash : List Char → List (List Char)
  | [] => [[]]
  | c :: rest =>
    if c = '-' then [] :: splitDash rest
    else
      match splitDash rest with
      | [] => [[c]]
      | r :: rs => (c :: r) :: rs

/-- Value of one hexadecimal digit, if the character is one. -/
def hexDigitVal? (c : Char) : Option Nat :=
  if '0' ≤ c ∧ c ≤ '9' then some (c.toNat - '0'.toNat)
  else if 'a' ≤ c ∧ c ≤ 'f' then some (c.toNat - 'a'.toNat + 10)
  else if 'A' ≤ c ∧ c ≤ 'F' then some (c.toNat - 'A'.toNat + 10)
  else none

/-- Accumulates the value of a hexadecimal digit string. -/
def parseHexDigits (l : List Char) : Option Nat :=
  l.foldl (fun acc c => do
    let a ← acc
    let d ← hexDigitVal? c
    pure (a * 16 + d)) (some 0)

/-- Embeds `int(s, 16)` applied after the `"0x"` prefix: at least one digit is
required and every character must be a hex digit, else Python raises
`ValueError`.  (Python also tolerates `_` digit separators; no input of this
program contains them, and they are not modelled.) -/
def parseHex (l : List Char) : Except String Nat :=
  match l with
  | [] => .error "invalid literal for int with base 16"
  | _ =>
    match parseHexDigits l with
    | some v => .ok v
    | none => .error "invalid literal for int with base 16"

/-- Embeds the endpoint parser `p` (source lines 32-36): a `"0x"`-prefixed hex
literal, else `ord` of what must be a single character (`ord` of any other
string raises `TypeError`, embedded as `.error`). -/
def pEndpoint (s : List Char) : Except String Nat :=
  if List.isPrefixOf ['0', 'x'] s then parseHex (s.drop 2)
  else
    match s with
    | [c] => .ok c.toNat
    | _ => .error "ord() expected a character"

/-- Embeds the body of the range loop (source lines 39-45): a part containing a
dash is unpacked into exactly two endpoints (`ValueError` otherwise), the
endpoints are sorted, and the inclusive range is produced; a part without a
dash is a single code. -/
def parseGroup (part : List Char) : Except String (Finset Nat) :=
  if '-' ∈ part then
    match splitDash part with
    | [a, b] => do
      let x ← pEndpoint a
      let y ← pEndpoint b
      pure (Finset.Icc (min x y) (max x y))
    | _ => .error "unpack mismatch"
  else do
    let v ← pEndpoint part
    pure ({v} : Finset Nat)

/-- Embeds `parse_char_ranges` (source lines 26-47): strip the outer brackets,
split on `][`, and accumulate the union of every group's codes; the first
failing group aborts with its exception. -/
def parse_char_ranges (l : List Char) : Except String (Finset Nat) :=
  (splitBrk (stripBrackets l)).foldlM
    (fun chars part => do
      let s ← parseGroup part
      pure (chars ∪ s))
    (∅ : Finset Nat)

/-! ### Data model (source lines 13-23) -/

/-- Embeds the `Transition` dataclass: source node, destination node, and the
set of character codes that trigger the edge (empty set = the "unconditional"
sentinel). -/
structure Transition where
  src : Nat
  dst : Nat
  chars : Finset Nat
deriving DecidableEq

/-- Embeds the `ParsedDFA` dataclass: the ordered transitions of one graph
block and the `(node id, label)` pairs of its accepting nodes. -/
structure ParsedDFA where
  transitions : List Transition
  finalnodes : List (Nat × String)
deriving DecidableEq

/-! ### Automaton Builder (`parsed_dfa_to_automaton`, source lines 135-181) -/

/-- Embeds `mk_state = lambda x: str(x)` (source line 136). -/
def mk_state (x : Nat) : String := toString x

/-- Models the nested Python dict `transitions`: a total function where a
missing inner key is `none`.  The key set of the outer dict is the state set,
tracked separately by the builder. -/
def TransMap : Type := String → Nat → Option String

/-- Embeds the `states` accumulation of source lines 142-144: both endpoints
of every transition. -/
def statesOf (p : ParsedDFA) : Finset String :=
  p.transitions.foldl
    (fun acc t => insert (mk_state t.dst) (insert (mk_state t.src) acc)) ∅

/-- Embeds the `input_symbols` accumulation of source lines 145-146: every
character code observed in any transition.  (Python stores `chr(x)`; `chr` is
injective, so the codes themselves are kept.) -/
def input_symbolsOf (p : ParsedDFA) : Finset Nat :=
  p.transitions.foldl (fun acc t => acc ∪ t.chars) ∅

/-- Embeds `final_states` (source line 139). -/
def final_statesOf (p : ParsedDFA) : Finset String :=
  (p.finalnodes.map (fun n => mk_state n.1)).toFinset

/-- Embeds `nonstarters` (source line 147): every transition destination. -/
def nonstartersOf (p : ParsedDFA) : Finset String :=
  (p.transitions.map (fun t => mk_state t.dst)).toFinset

/-- Embeds `starters = list(states - nonstarters)` (source line 167). -/
def startersOf (p : ParsedDFA) : Finset String :=
  statesOf p \ nonstartersOf p

/-- Condition under which the loop body for transition `t` (source lines
157-165) writes the dict entry at `(s, c)`: the row is `t`'s source and `c`
is covered by `t` — every alphabet symbol when `t.chars` is empty ("empty set
here means unconditional transition, not missing!"), otherwise exactly the
codes of `t.chars`. -/
def covers (syms : Finset Nat) (t : Transition) (s : String) (c : Nat) : Bool :=
  decide (s = mk_state t.src) &&
    (if t.chars = ∅ then decide (c ∈ syms) else decide (c ∈ t.chars))

/-- Embeds one iteration of the transition loop (source lines 157-165).  The
inner `for sym in ...` loops write independent entries of the row with one
common destination value, so the iteration is embedded as the equivalent
pointwise map update. -/
def applyTransition (syms : Finset Nat) (m : TransMap) (t : Transition) : TransMap :=
  fun s c => if covers syms t s c then some (mk_state t.dst) else m s c

/-- Embeds the dict state after source lines 149-155: every state row starts
empty, then every final state receives a self-loop on every alphabet symbol
("may be overridden below").  The self-loop assignments are independent of one
another, so the two loops are embedded pointwise. -/
def initMap (finals : Finset String) (syms : Finset Nat) : TransMap :=
  fun s c => if s ∈ finals ∧ c ∈ syms then some s else none

/-- Embeds the completed transition dict: the final-state self-loops followed
by the single pass over the recorded transitions in list order (source lines
149-165). -/
def transMapOf (p : ParsedDFA) : TransMap :=
  p.transitions.foldl (applyTransition (input_symbolsOf p))
    (initMap (final_statesOf p) (input_symbolsOf p))

/-- Failure modes of automaton construction.  `keyError` is Python's
`KeyError` at source line 155 (a final state that is not a key of the
`transitions` dict, hit as soon as the symbol loop runs at least once);
`multipleStartStates` is the `Exception` of source line 169;
`missingStartState` is the `AssertionError` of source lines 170-172;
`missingTransition` is the totality validation of the external library's DFA
constructor (see `dfaTotal`). -/
inductive BuildErr where
  | keyError
  | multipleStartStates
  | missingStartState
  | missingTransition
deriving DecidableEq

/-- ConfigurationError of the spec's error taxonomy (§7): the start-state
failures. -/
def isConfigError : BuildErr → Bool
  | .multipleStartStates => true
  | .missingStartState => true
  | _ => false

/-- The fully realized automaton (the value of `DFA(...)` at source lines
175-181). -/
structure DFA where
  states : Finset String
  input_symbols : Finset Nat
  transitions : TransMap
  initial_state : String
  final_states : Finset String

instance : Inhabited DFA := ⟨⟨∅, ∅, fun _ _ => none, "", ∅⟩⟩

/-- Modelled from the spec: the external automata library's `DFA` constructor
(source line 175) is not part of this repository; the spec states the
invariant it enforces — "every state has an outgoing transition defined for
every symbol in the automaton's alphabet (totality)" (§3), required by the
equivalence algorithm. -/
def dfaTotal (p : ParsedDFA) : Prop :=
  ∀ s ∈ statesOf p, ∀ c ∈ input_symbolsOf p, (transMapOf p s c).isSome = true

instance (p : ParsedDFA) : Decidable (dfaTotal p) :=
  inferInstanceAs (Decidable (∀ s ∈ statesOf p, ∀ c ∈ input_symbolsOf p,
    (transMapOf p s c).isSome = true))

/-- Embeds `parsed_dfa_to_automaton` (source lines 135-181).  The `KeyError`
of the final-state self-loop loop fires before the start-state checks; the
`Exception` of line 169 fires before the `assert` of lines 170-172; the
library constructor's totality validation (`dfaTotal`, modelled from the
spec) runs last, at the `DFA(...)` call. -/
def parsed_dfa_to_automaton (p : ParsedDFA) : Except BuildErr DFA :=
  if (input_symbolsOf p).Nonempty ∧ ¬ final_statesOf p ⊆ statesOf p then
    .error .keyError
  else if 1 < (startersOf p).card then
    .error .multipleStartStates
  else if h : (startersOf p).card = 1 then
    if dfaTotal p then
      .ok
        { states := statesOf p
          input_symbols := input_symbolsOf p
          transitions := transMapOf p
          initial_state := (startersOf p).min' (Finset.card_pos.mp (by omega))
          final_states := final_statesOf p }
    else .error .missingTransition
  else .error .missingStartState

/-- Tests whether construction succeeded. -/
def buildOk (r : Except BuildErr DFA) : Bool :=
  match r with
  | .ok _ => true
  | .error _ => false

/-- The error of a failed construction, if any. -/
def resErr : Except BuildErr DFA → Option BuildErr
  | .error e => some e
  | .ok _ => none

/-- A transition-function entry of a successfully built automaton. -/
def resTrans (r : Except BuildErr DFA) (s : String) (c : Nat) : Option String :=
  match r with
  | .ok d => d.transitions s c
  | .error _ => none

/-- The state set of a successfully built automaton. -/
def resStates : Except BuildErr DFA → Option (Finset String)
  | .ok d => some d.states
  | .error _ => none

/-- The final-state set of a successfully built automaton. -/
def resFinals : Except BuildErr DFA → Option (Finset String)
  | .ok d => some d.final_states
  | .error _ => none

/-- The built automaton of a successful construction. -/
def getDFA (r : Except BuildErr DFA) : DFA :=
  match r with
  | .ok d => d
  | .error _ => default

/-- Follows claim C2's words, not the source (for comparison with the
source's behaviour): complete the transition function in three ordered
phases — the self-loop initialization, then EVERY transition with a non-empty
character set, then EVERY transition with the empty character set, later
phases overriding earlier ones. -/
def claimThreePhaseMap (p : ParsedDFA) : TransMap :=
  (p.transitions.filter (fun t => decide (t.chars = ∅))).foldl
    (applyTransition (input_symbolsOf p))
    ((p.transitions.filter (fun t => decide (¬ t.chars = ∅))).foldl
      (applyTransition (input_symbolsOf p))
      (initMap (final_statesOf p) (input_symbolsOf p)))

/-! ### Concrete instances used to settle the claims -/

/-- A ParsedDFA whose unconditional transition precedes a labeled transition
from the same source in the list. -/
def pdfaC2 : ParsedDFA := ⟨[⟨0, 2, ∅⟩, ⟨0, 1, {97}⟩], [(1, "fin"), (2, "fin")]⟩

/-- A ParsedDFA whose unconditional transition is followed by a labeled
transition from the same source. -/
def pdfaC6 : ParsedDFA := ⟨[⟨0, 1, ∅⟩, ⟨0, 2, {97}⟩], [(1, "fin"), (2, "fin")]⟩

/-- A ParsedDFA with an unconditional transition whose source has no later
transitions. -/
def pdfaC6w : ParsedDFA := ⟨[⟨0, 1, ∅⟩, ⟨1, 2, {97}⟩], [(2, "fin")]⟩

/-- A ParsedDFA with no start candidate (the only state is its own
destination) and an accepting node absent from the transitions: the
final-state self-loop loop hits the missing dict row first. -/
def pdfaC4 : ParsedDFA := ⟨[⟨0, 0, {97}⟩], [(5, "fin")]⟩

/-- A ParsedDFA with no start candidate whose accepting node is a real
state. -/
def pdfaC4b : ParsedDFA := ⟨[⟨0, 0, {97}⟩], [(0, "fin")]⟩

/-- A well-formed ParsedDFA that builds successfully. -/
def pdfaOkEx : ParsedDFA := ⟨[⟨0, 1, {97}⟩, ⟨1, 1, {97}⟩], [(1, "fin")]⟩

/-- A ParsedDFA whose accepting node occurs in no transition, with an empty
alphabet, so construction succeeds with a final state outside the state
set. -/
def pdfaC10 : ParsedDFA := ⟨[⟨0, 1, ∅⟩], [(5, "fin")]⟩

/-! ### Equivalence Engine (`main`, source lines 217-235)

The automaton algebra (`difference`, `union`, `isempty`, `successor`, `==`)
is provided by the external automata library and is not part of this
repository; following the spec's design notes (§9) it is modelled here as a
self-contained module: product construction for difference and union, and a
shortest-first, lexicographic-within-length bounded word search for the
witness and emptiness queries. -/

/-- Modelled from the spec: the common shape of a deterministic machine the
engine manipulates — a step function, a start state and an acceptance test. -/
structure Mach (S : Type) where
  step : S → Nat → S
  start : S
  acc : S → Bool

/-- Runs a machine from a given state over a word. -/
def Mach.runFrom {S : Type} (M : Mach S) (s : S) (w : List Nat) : S :=
  w.foldl M.step s

/-- Runs a machine from its start state. -/
def Mach.run {S : Type} (M : Mach S) (w : List Nat) : S :=
  M.runFrom M.start w

/-- Acceptance of a word. -/
def Mach.accepts {S : Type} (M : Mach S) (w : List Nat) : Bool :=
  M.acc (M.run w)

/-- Modelled from the spec: the language of a built automaton as the library
DFA accepts it — run the transition function from the start state; a symbol
with no entry leads to the dead `none` state and rejects. -/
def toMach (d : DFA) : Mach (Option String) where
  step := fun s c => s.bind (fun st => d.transitions st c)
  start := some d.initial_state
  acc := fun s =>
    match s with
    | some st => decide (st ∈ d.final_states)
    | none => false

/-- Membership of a word in a built automaton's language. -/
def acceptsWord (d : DFA) (w : List Nat) : Bool := (toMach d).accepts w

/-- Modelled from the spec: product construction (§9) combining two machines
with a Boolean connective on acceptance. -/
def prodMach {S1 S2 : Type} (M : Mach S1) (N : Mach S2) (f : Bool → Bool → Bool) :
    Mach (S1 × S2) where
  step := fun p c => (M.step p.1 c, N.step p.2 c)
  start := (M.start, N.start)
  acc := fun p => f (M.acc p.1) (N.acc p.2)

/-- Modelled from the spec: the difference machine — accepted by the first
operand and not the second. -/
def mdiff {S1 S2 : Type} (M : Mach S1) (N : Mach S2) : Mach (S1 × S2) :=
  prodMach M N (fun x y => x && !y)

/-- Modelled from the spec: the union machine. -/
def munion {S1 S2 : Type} (M : Mach S1) (N : Mach S2) : Mach (S1 × S2) :=
  prodMach M N (fun x y => x || y)

/-- Ascending list of the members of a finite set of codes. -/
def finsetAsc (s : Finset Nat) : List Nat :=
  (List.range (s.sup id + 1)).filter (fun c => decide (c ∈ s))

/-- All words of the given length over the given symbol list; when the symbol
list is ascending the enumeration is lexicographically ascending. -/
def wordsLen (al : List Nat) : Nat → List (List Nat)
  | 0 => [[]]
  | n + 1 => al.flatMap (fun c => (wordsLen al n).map (fun w => c :: w))

/-- First accepted word: lengths are scanned in list order and the words of
one length in enumeration order. -/
def searchLens (f : List Nat → Bool) (al : List Nat) (lens : List Nat) :
    Option (List Nat) :=
  lens.findSome? (fun n => (wordsLen al n).find? f)

/-- Modelled from the spec: the library's `isempty` — emptiness of the
machine's language, decided by reachability (§9), here as a search over every
word length up to the machine's state-count bound. -/
def isemptyMach {S : Type} (M : Mach S) (al : List Nat) (bound : Nat) : Bool :=
  (searchLens (fun w => M.accepts w) al (List.range (bound + 1))).isNone

/-- Modelled from the spec: the library's `successor("", strict=True)` — the
shortest non-empty accepted word, ties broken lexicographically (§4.4),
found by scanning lengths 1..bound. -/
def successorStrict {S : Type} (M : Mach S) (al : List Nat) (bound : Nat) :
    Option (List Nat) :=
  searchLens (fun w => M.accepts w) al ((List.range bound).map (· + 1))

/-- Modelled from the spec: equivalence comparison "implicitly unions/aligns"
the two alphabets (§3); the union alphabet, ascending. -/
def unionAlpha (a z : DFA) : List Nat :=
  finsetAsc (a.input_symbols ∪ z.input_symbols)

/-- State-count bound of the difference machine of two built automata. -/
def diffBound (x y : DFA) : Nat := (x.states.card + 1) * (y.states.card + 1)

/-- Modelled from the spec: the library's `x.difference(y)` (§4.4). -/
def diffDFA (x y : DFA) : Mach ((Option String) × (Option String)) :=
  mdiff (toMach x) (toMach y)

/-- Modelled from the spec: the library's `x.union(y)`. -/
def unionDFA (x y : DFA) : Mach ((Option String) × (Option String)) :=
  munion (toMach x) (toMach y)

/-- Embeds the `zad` reporting of `main` (source lines 221-224): when
`z.difference(a)` is non-empty, the smallest non-empty string it accepts. -/
def witnessOnlyZ (a z : DFA) : Option (List Nat) :=
  if isemptyMach (diffDFA z a) (unionAlpha a z) (diffBound z a) then none
  else successorStrict (diffDFA z a) (unionAlpha a z) (diffBound z a)

/-- Embeds the `adz` reporting of `main` (source lines 226-229). -/
def witnessOnlyA (a z : DFA) : Option (List Nat) :=
  if isemptyMach (diffDFA a z) (unionAlpha a z) (diffBound a z) then none
  else successorStrict (diffDFA a z) (unionAlpha a z) (diffBound a z)

/-- State-count bound for the difference of a union machine against one of
its operands. -/
def uBound (x y : DFA) : Nat :=
  (x.states.card + 1) * (y.states.card + 1) * (x.states.card + 1)

/-- Modelled from the spec: the library's `==` on automata is language
equality, decided by emptiness of both differences; `langEqU x y` decides
`x.union(y) == x`. -/
def langEqU (x y : DFA) : Bool :=
  isemptyMach (mdiff (unionDFA x y) (toMach x)) (unionAlpha x y) (uBound x y) &&
  isemptyMach (mdiff (toMach x) (unionDFA x y)) (unionAlpha x y) (uBound x y)

/-- Embeds `equiv1 = a.union(z) == a and z.union(a) == z` (source line
231). -/
def equivUnionBased (a z : DFA) : Bool := langEqU a z && langEqU z a

/-- Embeds `equiv2 = adz.isempty() and zad.isempty()` (source line 232). -/
def equivDiffBased (a z : DFA) : Bool :=
  isemptyMach (diffDFA a z) (unionAlpha a z) (diffBound a z) &&
  isemptyMach (diffDFA z a) (unionAlpha a z) (diffBound z a)

/-- Outcome of the Equivalence Engine on two automata: the two reported
witnesses and the equivalence verdict. -/
structure CompareResult where
  witnessZOnly : Option (List Nat)
  witnessAOnly : Option (List Nat)
  equivalent : Bool

/-- Embeds the comparison step of `main` (source lines 217-235): report both
difference witnesses and the verdict, halting with the internal-consistency
failure of the `assert equiv1 == equiv2` at source line 233 when the two
equivalence computations disagree. -/
def compareAutomata (a z : DFA) : Except String CompareResult :=
  if equivUnionBased a z = equivDiffBased a z then
    .ok ⟨witnessOnlyZ a z, witnessOnlyA a z, equivUnionBased a z⟩
  else .error "ConsistencyError"

/-- Tests whether the comparison halted with the consistency failure. -/
def isConsistencyFailure (r : Except String CompareResult) : Bool :=
  match r with
  | .error _ => true
  | .ok _ => false

/-- Shortlex order on words: shorter first, lexicographic among equal
lengths (the "canonical ordering" of §4.4). -/
def shortlexLe (u v : List Nat) : Prop :=
  u.length < v.length ∨ (u.length = v.length ∧ (u = v ∨ List.Lex (· < ·) u v))

/-- Closure of a finite state set under a machine's step function. -/
def MachClosed {S : Type} [DecidableEq S] (M : Mach S) (R : Finset S) : Prop :=
  M.start ∈ R ∧ ∀ s ∈ R, ∀ c, M.step s c ∈ R

/-- The live states of a built automaton together with the dead state. -/
def reachOf (d : DFA) : Finset (Option String) :=
  insert none (d.states.image some)

/-- Automaton accepting exactly the one-symbol-repeated language `{a}` over
the code 97, used as concrete engine input. -/
def pdfaWA : ParsedDFA :=
  ⟨[⟨0, 1, {97}⟩, ⟨1, 2, {97}⟩, ⟨2, 2, {97}⟩], [(1, "fin")]⟩

/-- Automaton accepting exactly `{aa}` over the code 97. -/
def pdfaWZ : ParsedDFA :=
  ⟨[⟨0, 1, {97}⟩, ⟨1, 2, {97}⟩, ⟨2, 3, {97}⟩, ⟨3, 3, {97}⟩], [(2, "fin")]⟩

/-- Automaton accepting `{a, aa, aaa, ...}` (every non-empty word over code
97). -/
def pdfaA1 : ParsedDFA := ⟨[⟨0, 1, {97}⟩, ⟨1, 1, {97}⟩], [(1, "fin")]⟩

/-- Automaton accepting exactly the empty word over code 97: the accepting
start state's self-loop is overridden by its explicit outgoing edge into a
dead sink. -/
def pdfaZ1 : ParsedDFA := ⟨[⟨5, 6, {97}⟩, ⟨6, 6, {97}⟩], [(5, "fin")]⟩

/-- The automaton built from `pdfaWA`. -/
def dfaWA : DFA := getDFA (parsed_dfa_to_automaton pdfaWA)

/-- The automaton built from `pdfaWZ`. -/
def dfaWZ : DFA := getDFA (parsed_dfa_to_automaton pdfaWZ)

/-- The automaton built from `pdfaA1`. -/
def dfaA1 : DFA := getDFA (parsed_dfa_to_automaton pdfaA1)

/-- The automaton built from `pdfaZ1`. -/
def dfaZ1 : DFA := getDFA (parsed_dfa_to_automaton pdfaZ1)

/-- The automaton built from `pdfaOkEx`. -/
def dfaOkEx : DFA := getDFA (parsed_dfa_to_automaton pdfaOkEx)

/-! ### Graph Parser label handling (`parse_re2c_graph`, source lines 90-98) -/

/-- Embeds Python `label.split()`: split on whitespace runs, dropping empty
tokens (`acc` carries the current token reversed). -/
def splitWsAux : List Char → List Char → List (List Char)
  | [], acc => if acc = [] then [] else [acc.reverse]
  | c :: rest, acc =>
    if c.isWhitespace then
      if acc = [] then splitWsAux rest []
      else acc.reverse :: splitWsAux rest []
    else splitWsAux rest (c :: acc)

/-- Embeds Python `label.split()`. -/
def splitWs (l : List Char) : List (List Char) := splitWsAux l []

/-- The accept-marker prefix the source tests for at line 94 — with the
source's own spelling, `"yyacept="`. -/
def acceptMarker : List Char := ['y', 'y', 'a', 'c', 'e', 'p', 't', '=']

/-- Embeds the label loop of source lines 90-98: tokenize on whitespace, skip
tokens beginning with the accept marker, decode every remaining token that
contains a bracket character via the Character Range Decoder, and union the
decoded sets into the edge's character set; a decoder exception aborts. -/
def parse_edge_label (label : List Char) : Except String (Finset Nat) :=
  (splitWs label).foldlM
    (fun chars tok =>
      if List.isPrefixOf acceptMarker tok then pure chars
      else if '[' ∈ tok then do
        let s ← parse_char_ranges tok
        pure (chars ∪ s)
      else pure chars)
    (∅ : Finset Nat)

/-- Endpoint shapes of the range grammar (spec §6): a `0x`-prefixed two-digit
hex literal or one single source character that does not collide with the
dash or bracket separators of the enclosing range syntax. -/
def validEndpointB (e : List Char) : Bool :=
  match e with
  | [c] => !(c = '-' || c = '[' || c = ']')
  | [c1, c2, d1, d2] =>
    c1 = '0' && c2 = 'x' && (hexDigitVal? d1).isSome && (hexDigitVal? d2).isSome
  | _ => false

end Equivcheck

namespace Equivcheck

/-! ### Theorems -/

/-! #### Builder lemmas -/

theorem statesOf_foldl (l : List Transition) (init : Finset String) (s : String) :
    s ∈ l.foldl (fun acc t => insert (mk_state t.dst) (insert (mk_state t.src) acc)) init ↔
      s ∈ init ∨ ∃ t ∈ l, s = mk_state t.src ∨ s = mk_state t.dst := by
  induction l generalizing init with
  | nil => simp
  | cons t l ih =>
    simp only [List.foldl_cons, ih, Finset.mem_insert, List.mem_cons]
    aesop

theorem mem_statesOf (p : ParsedDFA) (s : String) :
    s ∈ statesOf p ↔ ∃ t ∈ p.transitions, s = mk_state t.src ∨ s = mk_state t.dst := by
  unfold statesOf
  rw [statesOf_foldl]
  simp

theorem input_symbolsOf_foldl (l : List Transition) (init : Finset Nat) (c : Nat) :
    c ∈ l.foldl (fun acc t => acc ∪ t.chars) init ↔
      c ∈ init ∨ ∃ t ∈ l, c ∈ t.chars := by
  induction l generalizing init with
  | nil => simp
  | cons t l ih =>
    simp only [List.foldl_cons, ih, Finset.mem_union, List.mem_cons]
    aesop

theorem mem_input_symbolsOf (p : ParsedDFA) (c : Nat) :
    c ∈ input_symbolsOf p ↔ ∃ t ∈ p.transitions, c ∈ t.chars := by
  unfold input_symbolsOf
  rw [input_symbolsOf_foldl]
  simp

theorem mem_final_statesOf (p : ParsedDFA) (s : String) :
    s ∈ final_statesOf p ↔ ∃ n ∈ p.finalnodes, s = mk_state n.1 := by
  unfold final_statesOf
  simp [eq_comm]

theorem chars_subset_input_symbolsOf (p : ParsedDFA) (t : Transition)
    (ht : t ∈ p.transitions) : t.chars ⊆ input_symbolsOf p :=
  fun c hc => (mem_input_symbolsOf p c).mpr ⟨t, ht, hc⟩

theorem foldl_applyTransition_lookup (syms : Finset Nat) (ts : List Transition)
    (m : TransMap) (s : String) (c : Nat) :
    ts.foldl (applyTransition syms) m s c =
      match ts.reverse.find? (fun t => covers syms t s c) with
      | some t => some (mk_state t.dst)
      | none => m s c := by
  induction ts generalizing m with
  | nil => simp
  | cons t ts ih =>
    rw [List.foldl_cons, ih, List.reverse_cons, List.find?_append]
    cases hf : ts.reverse.find? (fun t => covers syms t s c) with
    | some t2 => rfl
    | none =>
      cases hc : covers syms t s c with
      | true => simp [List.find?, hc, applyTransition]
      | false => simp [List.find?, hc, applyTransition]

theorem build_ok_spec (p : ParsedDFA) (d : DFA)
    (h : parsed_dfa_to_automaton p = .ok d) :
    d.states = statesOf p ∧ d.input_symbols = input_symbolsOf p ∧
    d.transitions = transMapOf p ∧ d.final_states = final_statesOf p ∧
    (startersOf p).card = 1 ∧ d.initial_state ∈ startersOf p ∧ dfaTotal p ∧
    ((input_symbolsOf p).Nonempty → final_statesOf p ⊆ statesOf p) := by
  unfold parsed_dfa_to_automaton at h
  split_ifs at h with h1 h2 h3 h4
  cases h
  refine ⟨rfl, rfl, rfl, rfl, h3, ?_, h4, ?_⟩
  · exact Finset.min'_mem _ (Finset.card_pos.mp (by omega))
  · intro hne
    by_contra hsub
    exact h1 ⟨hne, hsub⟩

theorem build_fail_of_card_ne_one (p : ParsedDFA)
    (h : (startersOf p).card ≠ 1) :
    buildOk (parsed_dfa_to_automaton p) = false := by
  unfold parsed_dfa_to_automaton
  split_ifs <;> simp_all [buildOk]

theorem build_config_error_of_card_ne_one (p : ParsedDFA)
    (h : (startersOf p).card ≠ 1)
    (hk : ¬((input_symbolsOf p).Nonempty ∧ ¬ final_statesOf p ⊆ statesOf p)) :
    ∃ e, resErr (parsed_dfa_to_automaton p) = some e ∧ isConfigError e = true := by
  unfold parsed_dfa_to_automaton
  split_ifs
  · exact ⟨.multipleStartStates, rfl, rfl⟩
  · exact ⟨.missingStartState, rfl, rfl⟩

/-! #### Claims about the Automaton Builder -/

/-- C2 as stated is false: on `pdfaC2` (an unconditional transition listed
before a labeled transition from the same source) the built automaton keeps
the later, labeled assignment, while the claim's three-phase order (all
labeled transitions in step 2, then all unconditional ones in step 3) would
leave the unconditional destination. -/
theorem c2_counterexample :
    buildOk (parsed_dfa_to_automaton pdfaC2) = true ∧
    resTrans (parsed_dfa_to_automaton pdfaC2) "0" 97 = some "1" ∧
    claimThreePhaseMap pdfaC2 "0" 97 = some "2" ∧
    some "2" ≠ some "1" := by
  refine ⟨by decide, by decide, by decide, by decide⟩

/-- C2 (amended): the Builder initializes every accepting state with
self-loops on every alphabet symbol and then completes the transition
function in ONE pass over the recorded Transitions in list order — a
transition with a non-empty character set assigns its own symbols, one with
the empty set assigns every alphabet symbol, and the LAST assignment to a
`(state, symbol)` entry wins, falling back to the self-loop default. -/
theorem c2_last_assignment_wins (p : ParsedDFA) (d : DFA)
    (h : parsed_dfa_to_automaton p = .ok d) (s : String) (c : Nat) :
    d.transitions s c =
      match p.transitions.reverse.find? (fun t => covers (input_symbolsOf p) t s c) with
      | some t => some (mk_state t.dst)
      | none =>
        if s ∈ final_statesOf p ∧ c ∈ input_symbolsOf p then some s else none := by
  rw [(build_ok_spec p d h).2.2.1]
  unfold transMapOf
  rw [foldl_applyTransition_lookup]
  rfl

/-- C2 witness: on `pdfaC2` the amended rule gives the destination of the
last covering transition. -/
theorem c2_last_assignment_wins_witness :
    (getDFA (parsed_dfa_to_automaton pdfaC2)).transitions "0" 97 = some "1" := by
  rw [c2_last_assignment_wins pdfaC2 (getDFA (parsed_dfa_to_automaton pdfaC2)) rfl "0" 97]
  decide

/-- C3: for every automaton the Builder constructs, the transition function
is total on state set × alphabet. -/
theorem c3_transition_total (p : ParsedDFA) (d : DFA)
    (h : parsed_dfa_to_automaton p = .ok d) :
    ∀ s ∈ d.states, ∀ c ∈ d.input_symbols, (d.transitions s c).isSome = true := by
  obtain ⟨hs, hi, ht, -, -, -, htot, -⟩ := build_ok_spec p d h
  rw [hs, hi, ht]
  exact htot

/-- C3 witness: a concrete built automaton has a defined successor at a
concrete state-symbol pair. -/
theorem c3_transition_total_witness :
    ((getDFA (parsed_dfa_to_automaton pdfaOkEx)).transitions "0" 97).isSome = true :=
  c3_transition_total pdfaOkEx (getDFA (parsed_dfa_to_automaton pdfaOkEx)) rfl
    "0" (by decide) 97 (by decide)

/-- C4 as stated is false: on `pdfaC4` the number of never-a-destination
identifiers is zero, but construction fails with the `KeyError` of the
final-state self-loop loop (source line 155), not with a
ConfigurationError. -/
theorem c4_counterexample :
    (startersOf pdfaC4).card = 0 ∧
    resErr (parsed_dfa_to_automaton pdfaC4) = some BuildErr.keyError ∧
    isConfigError BuildErr.keyError = false := by
  refine ⟨by decide, by decide, by decide⟩

/-- C4 (amended): whenever the number of never-a-destination identifiers
differs from one, construction fails — with a ConfigurationError unless the
earlier accepting-state self-loop step has already raised its `KeyError` —
and an arbitrary start state is never picked; whenever construction
succeeds, exactly one such identifier exists and it is the start state. -/
theorem c4_start_state_amended (p : ParsedDFA) :
    ((startersOf p).card ≠ 1 → buildOk (parsed_dfa_to_automaton p) = false) ∧
    ((startersOf p).card ≠ 1 →
      ¬((input_symbolsOf p).Nonempty ∧ ¬ final_statesOf p ⊆ statesOf p) →
      ∃ e, resErr (parsed_dfa_to_automaton p) = some e ∧ isConfigError e = true) ∧
    (∀ d, parsed_dfa_to_automaton p = .ok d →
      (startersOf p).card = 1 ∧ startersOf p = {d.initial_state}) := by
  refine ⟨build_fail_of_card_ne_one p, build_config_error_of_card_ne_one p, ?_⟩
  intro d h
  obtain ⟨-, -, -, -, hcard, hmem, -, -⟩ := build_ok_spec p d h
  refine ⟨hcard, ?_⟩
  obtain ⟨a, ha⟩ := Finset.card_eq_one.mp hcard
  rw [ha] at hmem ⊢
  rw [Finset.mem_singleton] at hmem
  rw [hmem]

/-- C4 witness: a no-start-candidate input with a well-formed accepting node
fails with a ConfigurationError, and a well-formed input builds with the
unique entry node as start state. -/
theorem c4_start_state_amended_witness :
    buildOk (parsed_dfa_to_automaton pdfaC4b) = false ∧
    (∃ e, resErr (parsed_dfa_to_automaton pdfaC4b) = some e ∧ isConfigError e = true) ∧
    ((startersOf pdfaOkEx).card = 1 ∧
      startersOf pdfaOkEx = {(getDFA (parsed_dfa_to_automaton pdfaOkEx)).initial_state}) :=
  ⟨(c4_start_state_amended pdfaC4b).1 (by decide),
   (c4_start_state_amended pdfaC4b).2.1 (by decide) (by decide),
   (c4_start_state_amended pdfaOkEx).2.2 (getDFA (parsed_dfa_to_automaton pdfaOkEx)) rfl⟩

/-- C6 as stated is false: on `pdfaC6` the transition with the empty
character set is followed by a labeled transition from the same source, and
the built automaton maps the shared `(source, symbol)` entry to the later
transition's destination, not to the empty-set transition's destination. -/
theorem c6_counterexample :
    buildOk (parsed_dfa_to_automaton pdfaC6) = true ∧
    (⟨0, 1, ∅⟩ : Transition) ∈ pdfaC6.transitions ∧
    (⟨0, 1, (∅ : Finset Nat)⟩ : Transition).chars = ∅ ∧
    97 ∈ input_symbolsOf pdfaC6 ∧
    mk_state 0 = "0" ∧ mk_state 1 = "1" ∧
    resTrans (parsed_dfa_to_automaton pdfaC6) "0" 97 = some "2" ∧
    some "2" ≠ some "1" := by
  refine ⟨by decide, by decide, by decide, by decide, by decide, by decide,
    by decide, by decide⟩

/-- C6 (amended): a recorded Transition with the empty character set maps
`(source, c)` to its destination for every alphabet symbol `c` that no LATER
transition in the list also covers. -/
theorem c6_unconditional_amended (p : ParsedDFA) (d : DFA)
    (h : parsed_dfa_to_automaton p = .ok d)
    (t : Transition) (l1 l2 : List Transition)
    (hsplit : p.transitions = l1 ++ t :: l2) (hempty : t.chars = ∅)
    (c : Nat) (hc : c ∈ input_symbolsOf p)
    (hlater : ∀ t2 ∈ l2, covers (input_symbolsOf p) t2 (mk_state t.src) c = false) :
    d.transitions (mk_state t.src) c = some (mk_state t.dst) := by
  rw [(build_ok_spec p d h).2.2.1]
  unfold transMapOf
  rw [foldl_applyTransition_lookup, hsplit, List.reverse_append, List.reverse_cons,
    List.find?_append, List.find?_append]
  have h2 : l2.reverse.find? (fun t2 => covers (input_symbolsOf p) t2 (mk_state t.src) c)
      = none := by
    rw [List.find?_eq_none]
    intro t2 ht2
    rw [List.mem_reverse] at ht2
    simp [hlater t2 ht2]
  have ht : covers (input_symbolsOf p) t (mk_state t.src) c = true := by
    simp [covers, hempty, hc]
  rw [h2]
  simp [List.find?, ht, Option.or]

/-- C6 witness: on `pdfaC6w` the unconditional transition, last from its
source, sends the source to its destination on the alphabet symbol. -/
theorem c6_unconditional_amended_witness :
    (getDFA (parsed_dfa_to_automaton pdfaC6w)).transitions "0" 97 = some "1" :=
  c6_unconditional_amended pdfaC6w (getDFA (parsed_dfa_to_automaton pdfaC6w)) rfl
    ⟨0, 1, ∅⟩ [] [⟨1, 2, {97}⟩] rfl rfl 97 (by decide) (by decide)

/-- C10: the built automaton's state set consists exactly of the identifiers
occurring as the source or destination of some transition, and the
final-state set is taken from the accepting-node list; an accepting node that
occurs in no transition is kept in the final-state set while being absent
from the state set, so the final-state set is not guaranteed to be a subset
of the state set (witnessed by `pdfaC10`). -/
theorem c10_states_and_finals :
    (∀ (p : ParsedDFA) (d : DFA), parsed_dfa_to_automaton p = .ok d →
      (∀ s, s ∈ d.states ↔ ∃ t ∈ p.transitions, s = mk_state t.src ∨ s = mk_state t.dst) ∧
      (∀ s, s ∈ d.final_states ↔ ∃ n ∈ p.finalnodes, s = mk_state n.1)) ∧
    (buildOk (parsed_dfa_to_automaton pdfaC10) = true ∧
      "5" ∈ (getDFA (parsed_dfa_to_automaton pdfaC10)).final_states ∧
      "5" ∉ (getDFA (parsed_dfa_to_automaton pdfaC10)).states ∧
      ¬ (getDFA (parsed_dfa_to_automaton pdfaC10)).final_states ⊆
          (getDFA (parsed_dfa_to_automaton pdfaC10)).states) := by
  constructor
  · intro p d h
    obtain ⟨hs, -, -, hf, -, -, -, -⟩ := build_ok_spec p d h
    exact ⟨fun s => by rw [hs]; exact mem_statesOf p s,
           fun s => by rw [hf]; exact mem_final_statesOf p s⟩
  · refine ⟨by decide, by decide, by decide, by decide⟩

/-- C10 witness: the state-set characterization evaluated on a concrete
built automaton. -/
theorem c10_states_and_finals_witness :
    "1" ∈ (getDFA (parsed_dfa_to_automaton pdfaOkEx)).states ↔
      ∃ t ∈ pdfaOkEx.transitions, "1" = mk_state t.src ∨ "1" = mk_state t.dst :=
  (c10_states_and_finals.1 pdfaOkEx (getDFA (parsed_dfa_to_automaton pdfaOkEx)) rfl).1 "1"

/-! #### Built-automaton invariants used by the engine -/

theorem build_trans_range (p : ParsedDFA) (d : DFA)
    (h : parsed_dfa_to_automaton p = .ok d) :
    ∀ s c s2, d.transitions s c = some s2 → s2 ∈ d.states := by
  obtain ⟨hs, -, ht, -, -, -, -, hfin⟩ := build_ok_spec p d h
  intro s c s2 he
  rw [ht] at he
  unfold transMapOf at he
  rw [foldl_applyTransition_lookup] at he
  rw [hs]
  cases hf : (p.transitions.reverse.find? fun t => covers (input_symbolsOf p) t s c) with
  | some t =>
    rw [hf] at he
    have hmem : t ∈ p.transitions := List.mem_reverse.mp (List.mem_of_find?_eq_some hf)
    cases he
    exact (mem_statesOf p _).mpr ⟨t, hmem, Or.inr rfl⟩
  | none =>
    rw [hf] at he
    unfold initMap at he
    split_ifs at he with hcond
    cases he
    exact hfin ⟨c, hcond.2⟩ hcond.1

theorem build_trans_domain (p : ParsedDFA) (d : DFA)
    (h : parsed_dfa_to_automaton p = .ok d) :
    ∀ s c s2, d.transitions s c = some s2 → c ∈ d.input_symbols := by
  obtain ⟨-, hi, ht, -, -, -, -, -⟩ := build_ok_spec p d h
  intro s c s2 he
  rw [ht] at he
  unfold transMapOf at he
  rw [foldl_applyTransition_lookup] at he
  rw [hi]
  cases hf : (p.transitions.reverse.find? fun t => covers (input_symbolsOf p) t s c) with
  | some t =>
    have hcov := @List.find?_some Transition
      (fun t2 => covers (input_symbolsOf p) t2 s c) t p.transitions.reverse hf
    have hmem : t ∈ p.transitions := List.mem_reverse.mp (List.mem_of_find?_eq_some hf)
    simp only [] at hcov
    unfold covers at hcov
    rw [Bool.and_eq_true] at hcov
    rcases hcov with ⟨-, hcov⟩
    split_ifs at hcov with hemp
    · exact of_decide_eq_true hcov
    · exact chars_subset_input_symbolsOf p t hmem (of_decide_eq_true hcov)
  | none =>
    rw [hf] at he
    unfold initMap at he
    split_ifs at he with hcond
    exact hcond.2

theorem build_initial_mem (p : ParsedDFA) (d : DFA)
    (h : parsed_dfa_to_automaton p = .ok d) : d.initial_state ∈ d.states := by
  obtain ⟨hs, -, -, -, -, hmem, -, -⟩ := build_ok_spec p d h
  rw [hs]
  exact (Finset.mem_sdiff.mp hmem).1

/-! #### Machine runs -/

theorem runFrom_append {S : Type} (M : Mach S) (s : S) (u v : List Nat) :
    M.runFrom s (u ++ v) = M.runFrom (M.runFrom s u) v :=
  List.foldl_append M.step s u v

theorem run_take_drop {S : Type} (M : Mach S) (w : List Nat) (j : Nat) :
    M.run w = M.runFrom (M.run (w.take j)) (w.drop j) := by
  conv_lhs => rw [← List.take_append_drop j w]
  exact runFrom_append M M.start (w.take j) (w.drop j)

theorem runFrom_mem {S : Type} [DecidableEq S] (M : Mach S) (R : Finset S)
    (hcl : MachClosed M R) (s : S) (hs : s ∈ R) (w : List Nat) :
    M.runFrom s w ∈ R := by
  induction w generalizing s with
  | nil => exact hs
  | cons c w ih => exact ih (M.step s c) (hcl.2 s hs c)

theorem run_mem {S : Type} [DecidableEq S] (M : Mach S) (R : Finset S)
    (hcl : MachClosed M R) (w : List Nat) : M.run w ∈ R :=
  runFrom_mem M R hcl M.start hcl.1 w

theorem prod_runFrom {S1 S2 : Type} (M : Mach S1) (N : Mach S2)
    (f : Bool → Bool → Bool) (s1 : S1) (s2 : S2) (w : List Nat) :
    (prodMach M N f).runFrom (s1, s2) w = (M.runFrom s1 w, N.runFrom s2 w) := by
  induction w generalizing s1 s2 with
  | nil => rfl
  | cons c w ih => exact ih (M.step s1 c) (N.step s2 c)

theorem prod_accepts {S1 S2 : Type} (M : Mach S1) (N : Mach S2)
    (f : Bool → Bool → Bool) (w : List Nat) :
    (prodMach M N f).accepts w = f (M.accepts w) (N.accepts w) := by
  unfold Mach.accepts Mach.run
  rw [show (prodMach M N f).start = (M.start, N.start) from rfl,
    prod_runFrom M N f M.start N.start w]
  rfl

theorem prod_closed {S1 S2 : Type} [DecidableEq S1] [DecidableEq S2]
    (M : Mach S1) (N : Mach S2) (f : Bool → Bool → Bool)
    (R1 : Finset S1) (R2 : Finset S2)
    (h1 : MachClosed M R1) (h2 : MachClosed N R2) :
    MachClosed (prodMach M N f) (R1 ×ˢ R2) := by
  constructor
  · exact Finset.mem_product.mpr ⟨h1.1, h2.1⟩
  · intro s hs c
    rw [Finset.mem_product] at hs
    exact Finset.mem_product.mpr ⟨h1.2 s.1 hs.1 c, h2.2 s.2 hs.2 c⟩

theorem reachOf_card (d : DFA) : (reachOf d).card = d.states.card + 1 := by
  unfold reachOf
  rw [Finset.card_insert_of_not_mem (by simp), Finset.card_image_of_injective _
    (Option.some_injective String)]

theorem toMach_closed (p : ParsedDFA) (d : DFA)
    (h : parsed_dfa_to_automaton p = .ok d) :
    MachClosed (toMach d) (reachOf d) := by
  constructor
  · exact Finset.mem_insert_of_mem
      (Finset.mem_image.mpr ⟨d.initial_state, build_initial_mem p d h, rfl⟩)
  · intro s _ c
    cases s with
    | none => exact Finset.mem_insert_self none _
    | some st =>
      show (d.transitions st c ∈ reachOf d)
      cases he : d.transitions st c with
      | none => exact Finset.mem_insert_self none _
      | some st2 =>
        exact Finset.mem_insert_of_mem
          (Finset.mem_image.mpr ⟨st2, build_trans_range p d h st c st2 he, rfl⟩)

theorem toMach_runFrom_none (d : DFA) (w : List Nat) :
    (toMach d).runFrom none w = none := by
  induction w with
  | nil => rfl
  | cons c w ih => exact ih

theorem toMach_symbols (p : ParsedDFA) (d : DFA)
    (h : parsed_dfa_to_automaton p = .ok d) (w : List Nat) :
    ∀ (s0 : Option String) (st : String),
      (toMach d).runFrom s0 w = some st → ∀ c ∈ w, c ∈ d.input_symbols := by
  induction w with
  | nil => intro s0 st _ c hc; cases hc
  | cons c0 w ih =>
    intro s0 st hr c hc
    have hstep : (toMach d).runFrom s0 (c0 :: w)
        = (toMach d).runFrom ((toMach d).step s0 c0) w := rfl
    rw [hstep] at hr
    cases hs : (toMach d).step s0 c0 with
    | none =>
      rw [hs, toMach_runFrom_none] at hr
      cases hr
    | some st1 =>
      rcases List.mem_cons.mp hc with rfl | hc2
      · cases s0 with
        | none => cases hs
        | some st0 => exact build_trans_domain p d h st0 c st1 hs
      · rw [hs] at hr
        exact ih (some st1) st hr c hc2

theorem acceptsWord_symbols (p : ParsedDFA) (d : DFA)
    (h : parsed_dfa_to_automaton p = .ok d) (w : List Nat)
    (hacc : acceptsWord d w = true) : ∀ c ∈ w, c ∈ d.input_symbols := by
  unfold acceptsWord Mach.accepts at hacc
  cases hr : (toMach d).run w with
  | none => rw [hr] at hacc; cases hacc
  | some st => exact toMach_symbols p d h w (toMach d).start st hr

/-! #### Pigeonhole: any accepted word shrinks below the state bound -/

theorem cut_sublist {α : Type} (w : List α) (i j : Nat) (hij : i ≤ j) :
    List.Sublist (w.take i ++ w.drop j) w := by
  have h1 : List.Sublist (w.take i) (w.take j) := by
    have : w.take i = (w.take j).take i := by
      rw [List.take_take, min_eq_left hij]
    rw [this]
    exact List.take_sublist i (w.take j)
  have h2 := List.Sublist.append h1 (List.Sublist.refl (w.drop j))
  rwa [List.take_append_drop j w] at h2

theorem cut_accepted {S : Type} (M : Mach S) (w : List Nat) (i j : Nat)
    (heq : M.run (w.take i) = M.run (w.take j)) (hacc : M.accepts w = true) :
    M.accepts (w.take i ++ w.drop j) = true := by
  unfold Mach.accepts at hacc ⊢
  have h2 : M.run (w.take i ++ w.drop j) = M.runFrom (M.run (w.take i)) (w.drop j) :=
    runFrom_append M M.start (w.take i) (w.drop j)
  rw [h2, heq, ← run_take_drop M w j]
  exact hacc

theorem exists_short_accepted {S : Type} [DecidableEq S] (M : Mach S)
    (R : Finset S) (hcl : MachClosed M R) :
    ∀ (n : Nat) (w : List Nat), w.length = n → M.accepts w = true →
      ∃ w2, List.Sublist w2 w ∧ M.accepts w2 = true ∧ w2.length ≤ R.card ∧
        (w ≠ [] → w2 ≠ []) := by
  intro n
  induction n using Nat.strong_induction_on with
  | _ n ih =>
    intro w hlen hacc
    by_cases hle : w.length ≤ R.card
    · exact ⟨w, List.Sublist.refl w, hacc, hle, fun hne => hne⟩
    · push_neg at hle
      have hmaps : ∀ i ∈ Finset.range (R.card + 1), M.run (w.take i) ∈ R :=
        fun i _ => run_mem M R hcl (w.take i)
      have hcard : R.card < (Finset.range (R.card + 1)).card := by simp
      obtain ⟨i, hi, j, hj, hne, heq⟩ :=
        Finset.exists_ne_map_eq_of_card_lt_of_maps_to hcard hmaps
      rw [Finset.mem_range] at hi hj
      have key : ∀ a b : Nat, a < b → b ≤ R.card →
          M.run (w.take a) = M.run (w.take b) →
          ∃ w2, List.Sublist w2 w ∧ M.accepts w2 = true ∧ w2.length ≤ R.card ∧
            (w ≠ [] → w2 ≠ []) := by
        intro a b hab hbcard heq2
        have hacc1 : M.accepts (w.take a ++ w.drop b) = true :=
          cut_accepted M w a b heq2 hacc
        have hsub1 : List.Sublist (w.take a ++ w.drop b) w :=
          cut_sublist w a b (le_of_lt hab)
        have hlen1 : (w.take a ++ w.drop b).length = a + (w.length - b) := by
          rw [List.length_append, List.length_take, List.length_drop]
          omega
        have hlt : (w.take a ++ w.drop b).length < n := by omega
        obtain ⟨w2, hsub2, hacc2, hlen2, hne2⟩ :=
          ih _ hlt (w.take a ++ w.drop b) rfl hacc1
        refine ⟨w2, hsub2.trans hsub1, hacc2, hlen2, fun _ => ?_⟩
        exact hne2 (List.length_pos.mp (by omega))
      rcases Nat.lt_or_ge i j with hij | hij
      · exact key i j hij (by omega) heq
      · exact key j i (by omega) (by omega) heq.symm

theorem mem_wordsLen (al : List Nat) :
    ∀ (n : Nat) (w : List Nat),
      w ∈ wordsLen al n ↔ w.length = n ∧ ∀ c ∈ w, c ∈ al := by
  intro n
  induction n with
  | zero =>
    intro w
    simp only [wordsLen, List.mem_singleton]
    constructor
    · rintro rfl
      exact ⟨rfl, by simp⟩
    · rintro ⟨hl, -⟩
      exact List.length_eq_zero.mp hl
  | succ n ih =>
    intro w
    simp only [wordsLen, List.mem_flatMap, List.mem_map]
    constructor
    · rintro ⟨c, hc, w2, hw2, rfl⟩
      obtain ⟨hl, hall⟩ := (ih w2).mp hw2
      refine ⟨by simp [hl], ?_⟩
      intro x hx
      rcases List.mem_cons.mp hx with rfl | hx2
      · exact hc
      · exact hall x hx2
    · rintro ⟨hl, hall⟩
      cases w with
      | nil => cases hl
      | cons c w2 =>
        refine ⟨c, hall c (List.mem_cons_self c w2), w2,
          (ih w2).mpr ⟨by simpa using hl, ?_⟩, rfl⟩
        intro x hx
        exact hall x (List.mem_cons_of_mem c hx)

/-! #### Enumeration order and first matches -/

theorem finsetAsc_mem (s : Finset Nat) (c : Nat) : c ∈ finsetAsc s ↔ c ∈ s := by
  unfold finsetAsc
  rw [List.mem_filter]
  constructor
  · rintro ⟨-, h⟩
    exact of_decide_eq_true h
  · intro h
    refine ⟨List.mem_range.mpr ?_, decide_eq_true h⟩
    have hle : id c ≤ s.sup id := Finset.le_sup h
    simp only [id] at hle
    omega

theorem finsetAsc_pairwise (s : Finset Nat) : (finsetAsc s).Pairwise (· < ·) := by
  unfold finsetAsc
  rw [List.pairwise_filter]
  exact (List.pairwise_lt_range _).imp (fun h _ _ => h)

theorem wordsLen_pairwise (al : List Nat) (hal : al.Pairwise (· < ·)) (n : Nat) :
    (wordsLen al n).Pairwise (fun u v => List.Lex (· < ·) u v) := by
  induction n with
  | zero => simp [wordsLen]
  | succ n ih =>
    show (al.flatMap fun c => (wordsLen al n).map (fun w => c :: w)).Pairwise _
    rw [List.pairwise_flatMap]
    constructor
    · intro c _
      rw [List.pairwise_map]
      exact ih.imp (fun h => List.Lex.cons h)
    · apply List.Pairwise.imp ?_ hal
      intro c1 c2 hlt x hx y hy
      rw [List.mem_map] at hx hy
      obtain ⟨u, -, rfl⟩ := hx
      obtain ⟨v, -, rfl⟩ := hy
      exact List.Lex.rel hlt

theorem find?_first {α : Type} {R : α → α → Prop} (l : List α) (hl : l.Pairwise R)
    (f : α → Bool) (x : α) (hx : l.find? f = some x) (y : α) (hy : y ∈ l)
    (hfy : f y = true) : x = y ∨ R x y := by
  induction l with
  | nil => cases hx
  | cons a l ih =>
    rw [List.pairwise_cons] at hl
    cases hfa : f a with
    | true =>
      rw [List.find?_cons_of_pos l hfa] at hx
      cases hx
      rcases List.mem_cons.mp hy with rfl | hy2
      · exact Or.inl rfl
      · exact Or.inr (hl.1 y hy2)
    | false =>
      rw [List.find?_cons_of_neg l (by simp [hfa])] at hx
      rcases List.mem_cons.mp hy with rfl | hy2
      · rw [hfy] at hfa
        cases hfa
      · exact ih hl.2 hx hy2

theorem findSome?_exists {α β : Type} (g : α → Option β) (l : List α) (x : β)
    (h : l.findSome? g = some x) : ∃ a ∈ l, g a = some x := by
  induction l with
  | nil => cases h
  | cons a l ih =>
    cases hg : g a with
    | some y =>
      simp only [List.findSome?_cons, hg] at h
      cases h
      exact ⟨a, List.mem_cons_self a l, hg⟩
    | none =>
      simp only [List.findSome?_cons, hg] at h
      obtain ⟨b, hb, hgb⟩ := ih h
      exact ⟨b, List.mem_cons_of_mem a hb, hgb⟩

theorem findSome?_first {β : Type} (l : List Nat) (hl : l.Pairwise (· < ·))
    (g : Nat → Option β) (x : β) (h : l.findSome? g = some x) :
    ∃ a ∈ l, g a = some x ∧ ∀ b ∈ l, b < a → g b = none := by
  induction l with
  | nil => cases h
  | cons c l ih =>
    rw [List.pairwise_cons] at hl
    cases hg : g c with
    | some y =>
      simp only [List.findSome?_cons, hg] at h
      cases h
      refine ⟨c, List.mem_cons_self c l, hg, ?_⟩
      intro b hb hlt
      rcases List.mem_cons.mp hb with rfl | hb2
      · omega
      · exact absurd hlt (by have := hl.1 b hb2; omega)
    | none =>
      simp only [List.findSome?_cons, hg] at h
      obtain ⟨a, ha, hga, hall⟩ := ih hl.2 h
      refine ⟨a, List.mem_cons_of_mem c ha, hga, ?_⟩
      intro b hb hlt
      rcases List.mem_cons.mp hb with rfl | hb2
      · exact hg
      · exact hall b hb2 hlt

theorem searchLens_sound (f : List Nat → Bool) (al lens : List Nat)
    (w : List Nat) (h : searchLens f al lens = some w) :
    f w = true ∧ ∃ n ∈ lens, w ∈ wordsLen al n := by
  unfold searchLens at h
  obtain ⟨n, hn, hfind⟩ := findSome?_exists _ _ _ h
  exact ⟨List.find?_some hfind, n, hn, List.mem_of_find?_eq_some hfind⟩

theorem mem_lensStrict (bound n : Nat) :
    n ∈ (List.range bound).map (· + 1) ↔ 1 ≤ n ∧ n ≤ bound := by
  rw [List.mem_map]
  constructor
  · rintro ⟨m, hm, rfl⟩
    rw [List.mem_range] at hm
    omega
  · rintro ⟨h1, h2⟩
    exact ⟨n - 1, List.mem_range.mpr (by omega), by omega⟩

theorem lensStrict_pairwise (bound : Nat) :
    ((List.range bound).map (· + 1)).Pairwise (· < ·) := by
  rw [List.pairwise_map]
  exact (List.pairwise_lt_range bound).imp (fun h => by omega)

/-! #### Correctness of the modelled successor and isempty queries -/

theorem successorStrict_spec {S : Type} [DecidableEq S] (M : Mach S)
    (R : Finset S) (hcl : MachClosed M R) (al : List Nat)
    (hal : al.Pairwise (· < ·))
    (hconf : ∀ w, M.accepts w = true → ∀ c ∈ w, c ∈ al)
    (bound : Nat) (hbound : R.card ≤ bound)
    (hne : ∃ w, w ≠ [] ∧ M.accepts w = true) :
    ∃ w0, successorStrict M al bound = some w0 ∧ M.accepts w0 = true ∧ w0 ≠ [] ∧
      ∀ w, M.accepts w = true → w ≠ [] → shortlexLe w0 w := by
  obtain ⟨w, hwne, hacc⟩ := hne
  obtain ⟨w2, -, hacc2, hlen2, hne2⟩ :=
    exists_short_accepted M R hcl w.length w rfl hacc
  have hw2ne : w2 ≠ [] := hne2 hwne
  have hmem2 : w2 ∈ wordsLen al w2.length :=
    (mem_wordsLen al w2.length w2).mpr ⟨rfl, hconf w2 hacc2⟩
  have hlens2 : w2.length ∈ (List.range bound).map (· + 1) := by
    rw [mem_lensStrict]
    have : 0 < w2.length := List.length_pos.mpr hw2ne
    omega
  -- the search cannot come back empty
  have hsome : ∃ w0, successorStrict M al bound = some w0 := by
    cases hs : successorStrict M al bound with
    | some w0 => exact ⟨w0, rfl⟩
    | none =>
      unfold successorStrict searchLens at hs
      have := List.findSome?_eq_none_iff.mp hs w2.length hlens2
      rw [List.find?_eq_none] at this
      exact absurd hacc2 (by simpa using this w2 hmem2)
  obtain ⟨w0, hw0⟩ := hsome
  obtain ⟨hacc0, n0, hn0, hmem0⟩ := searchLens_sound _ _ _ _ hw0
  obtain ⟨hlen0, -⟩ := (mem_wordsLen al n0 w0).mp hmem0
  have hn0b := (mem_lensStrict bound n0).mp hn0
  have h0ne : w0 ≠ [] := by
    intro hnil
    rw [hnil] at hlen0
    simp at hlen0
    omega
  refine ⟨w0, hw0, hacc0, h0ne, ?_⟩
  -- minimality
  intro v hvacc hvne
  have hvsym : ∀ c ∈ v, c ∈ al := hconf v hvacc
  have hvmem : v ∈ wordsLen al v.length := (mem_wordsLen al v.length v).mpr ⟨rfl, hvsym⟩
  unfold successorStrict at hw0
  unfold searchLens at hw0
  obtain ⟨a, han, hga, hfirst⟩ :=
    findSome?_first _ (lensStrict_pairwise bound) _ _ hw0
  have ha0 : a = n0 := by
    have hm := List.mem_of_find?_eq_some hga
    obtain ⟨hl, -⟩ := (mem_wordsLen al a w0).mp hm
    omega
  subst ha0
  rcases Nat.lt_trichotomy v.length a with hlt | heq | hgt
  · -- a shorter accepted word would have been found at its own length
    exfalso
    have hvlen : v.length ∈ (List.range bound).map (· + 1) := by
      rw [mem_lensStrict]
      have : 0 < v.length := List.length_pos.mpr hvne
      omega
    have := hfirst v.length hvlen hlt
    rw [List.find?_eq_none] at this
    exact absurd hvacc (by simpa using this v hvmem)
  · -- same length: the enumeration is lexicographically sorted
    have hvmem0 : v ∈ wordsLen al a := by rw [← heq]; exact hvmem
    have := find?_first (wordsLen al a) (wordsLen_pairwise al hal a)
      _ w0 hga v hvmem0 hvacc
    rcases this with rfl | hlex
    · exact Or.inr ⟨by omega, Or.inl rfl⟩
    · exact Or.inr ⟨by omega, Or.inr hlex⟩
  · exact Or.inl (by omega)

theorem isemptyMach_iff {S : Type} [DecidableEq S] (M : Mach S)
    (R : Finset S) (hcl : MachClosed M R) (al : List Nat)
    (hconf : ∀ w, M.accepts w = true → ∀ c ∈ w, c ∈ al)
    (bound : Nat) (hbound : R.card ≤ bound) :
    isemptyMach M al bound = true ↔ ∀ w, M.accepts w = false := by
  constructor
  · intro h w
    by_contra hacc
    rw [Bool.not_eq_false] at hacc
    obtain ⟨w2, -, hacc2, hlen2, -⟩ :=
      exists_short_accepted M R hcl w.length w rfl hacc
    have hmem2 : w2 ∈ wordsLen al w2.length :=
      (mem_wordsLen al w2.length w2).mpr ⟨rfl, hconf w2 hacc2⟩
    unfold isemptyMach searchLens at h
    rw [Option.isNone_iff_eq_none] at h
    have := List.findSome?_eq_none_iff.mp h w2.length
      (List.mem_range.mpr (by omega))
    rw [List.find?_eq_none] at this
    exact absurd hacc2 (by simpa using this w2 hmem2)
  · intro h
    unfold isemptyMach searchLens
    rw [Option.isNone_iff_eq_none, List.findSome?_eq_none_iff]
    intro n _
    rw [List.find?_eq_none]
    intro x _
    simp [h x]

theorem isemptyMach_false_of_accepts {S : Type} (M : Mach S) (al : List Nat)
    (bound : Nat) (w : List Nat) (hmem : w ∈ wordsLen al w.length)
    (hlen : w.length ≤ bound) (hacc : M.accepts w = true) :
    isemptyMach M al bound = false := by
  unfold isemptyMach searchLens
  rw [Bool.eq_false_iff]
  intro hnone
  rw [Option.isNone_iff_eq_none] at hnone
  have := List.findSome?_eq_none_iff.mp hnone w.length
    (List.mem_range.mpr (by omega))
  rw [List.find?_eq_none] at this
  exact absurd hacc (by simpa using this w hmem)

theorem isemptyMach_true_of_never {S : Type} (M : Mach S) (al : List Nat)
    (bound : Nat) (h : ∀ w, M.accepts w = false) :
    isemptyMach M al bound = true := by
  unfold isemptyMach searchLens
  rw [Option.isNone_iff_eq_none, List.findSome?_eq_none_iff]
  intro n _
  rw [List.find?_eq_none]
  intro x _
  simp [h x]

/-! #### Languages of the engine's machines -/

theorem mdiff_accepts {S1 S2 : Type} (M : Mach S1) (N : Mach S2) (w : List Nat) :
    (mdiff M N).accepts w = (M.accepts w && !(N.accepts w)) :=
  prod_accepts M N (fun b1 b2 => b1 && !b2) w

theorem munion_accepts {S1 S2 : Type} (M : Mach S1) (N : Mach S2) (w : List Nat) :
    (munion M N).accepts w = (M.accepts w || N.accepts w) :=
  prod_accepts M N (fun b1 b2 => b1 || b2) w

theorem diffDFA_accepts (x y : DFA) (w : List Nat) :
    (diffDFA x y).accepts w = (acceptsWord x w && !(acceptsWord y w)) :=
  prod_accepts (toMach x) (toMach y) (fun b1 b2 => b1 && !b2) w

theorem unionDFA_accepts (x y : DFA) (w : List Nat) :
    (unionDFA x y).accepts w = (acceptsWord x w || acceptsWord y w) :=
  prod_accepts (toMach x) (toMach y) (fun b1 b2 => b1 || b2) w

theorem diffDFA_closed (px py : ParsedDFA) (x y : DFA)
    (hx : parsed_dfa_to_automaton px = .ok x)
    (hy : parsed_dfa_to_automaton py = .ok y) :
    MachClosed (diffDFA x y) (reachOf x ×ˢ reachOf y) :=
  prod_closed _ _ _ _ _ (toMach_closed px x hx) (toMach_closed py y hy)

theorem diffDFA_card (x y : DFA) :
    (reachOf x ×ˢ reachOf y).card = diffBound x y := by
  rw [Finset.card_product, reachOf_card, reachOf_card]
  rfl

theorem diffDFA_conf (px : ParsedDFA) (x y : DFA)
    (hx : parsed_dfa_to_automaton px = .ok x)
    (al : List Nat) (hsub : ∀ c ∈ x.input_symbols, c ∈ al) :
    ∀ w, (diffDFA x y).accepts w = true → ∀ c ∈ w, c ∈ al := by
  intro w hacc c hc
  rw [diffDFA_accepts, Bool.and_eq_true] at hacc
  exact hsub c (acceptsWord_symbols px x hx w hacc.1 c hc)

theorem witness_core (px py : ParsedDFA) (x y : DFA)
    (hx : parsed_dfa_to_automaton px = .ok x)
    (hy : parsed_dfa_to_automaton py = .ok y)
    (al : List Nat) (hal : al.Pairwise (· < ·))
    (hsub : ∀ c ∈ x.input_symbols, c ∈ al)
    (hne : ∃ w, w ≠ [] ∧ acceptsWord x w = true ∧ acceptsWord y w = false) :
    ∃ w0,
      (if isemptyMach (diffDFA x y) al (diffBound x y) then none
        else successorStrict (diffDFA x y) al (diffBound x y)) = some w0 ∧
      w0 ≠ [] ∧ acceptsWord x w0 = true ∧ acceptsWord y w0 = false ∧
      ∀ w, w ≠ [] → acceptsWord x w = true → acceptsWord y w = false →
        shortlexLe w0 w := by
  have hconf := diffDFA_conf px x y hx al hsub
  have hcl := diffDFA_closed px py x y hx hy
  have hbound : (reachOf x ×ˢ reachOf y).card ≤ diffBound x y :=
    le_of_eq (diffDFA_card x y)
  have hne2 : ∃ w, w ≠ [] ∧ (diffDFA x y).accepts w = true := by
    obtain ⟨w, h1, h2, h3⟩ := hne
    exact ⟨w, h1, by rw [diffDFA_accepts, h2, h3]; rfl⟩
  obtain ⟨w0, hw0, hacc0, hne0, hmin⟩ :=
    successorStrict_spec (diffDFA x y) _ hcl al hal hconf (diffBound x y) hbound hne2
  have hEmpFalse : isemptyMach (diffDFA x y) al (diffBound x y) = false := by
    cases hEmp : isemptyMach (diffDFA x y) al (diffBound x y) with
    | false => rfl
    | true =>
      obtain ⟨w, -, hacc⟩ := hne2
      have := (isemptyMach_iff (diffDFA x y) _ hcl al hconf (diffBound x y)
        hbound).mp hEmp w
      rw [hacc] at this
      cases this
  rw [diffDFA_accepts, Bool.and_eq_true] at hacc0
  obtain ⟨hx0, hy0⟩ := hacc0
  have hy0f : acceptsWord y w0 = false := by
    revert hy0
    cases acceptsWord y w0 <;> simp
  refine ⟨w0, ?_, hne0, hx0, hy0f, ?_⟩
  · rw [if_neg (by simp [hEmpFalse])]
    exact hw0
  · intro w h1 h2 h3
    exact hmin w (by rw [diffDFA_accepts, h2, h3]; rfl) h1

/-! #### Claims about the Equivalence Engine -/

/-- C1 as stated is false on the edge case where the difference language is
exactly the singleton of the empty string: on the built automata of `pdfaA1`
(language: every non-empty word over code 97) and `pdfaZ1` (language: only
the empty word), Dz = language(Z) minus language(A) is non-empty — it
contains the empty word — yet it contains NO non-empty string, so the claimed
report ("the shortest non-empty string in Dz") does not exist, and the engine
indeed reports nothing. -/
theorem c1_counterexample :
    buildOk (parsed_dfa_to_automaton pdfaA1) = true ∧
    buildOk (parsed_dfa_to_automaton pdfaZ1) = true ∧
    acceptsWord dfaZ1 [] = true ∧
    acceptsWord dfaA1 [] = false ∧
    (¬ ∃ w, w ≠ [] ∧ acceptsWord dfaZ1 w = true ∧ acceptsWord dfaA1 w = false) ∧
    witnessOnlyZ dfaA1 dfaZ1 = none := by
  refine ⟨by decide, by decide, by decide, by decide, ?_, by decide⟩
  intro hne
  obtain ⟨w0, hw0, -⟩ := witness_core pdfaZ1 pdfaA1 dfaZ1 dfaA1 rfl rfl
    (unionAlpha dfaA1 dfaZ1) (finsetAsc_pairwise _)
    (fun c hc => (finsetAsc_mem _ c).mpr (Finset.mem_union_right _ hc)) hne
  have hz : witnessOnlyZ dfaA1 dfaZ1 = some w0 := hw0
  rw [show witnessOnlyZ dfaA1 dfaZ1 = none from by decide] at hz
  cases hz

/-- C1 (amended): for built automata A and Z, whenever the difference
language Dz = language(Z) minus language(A) contains a NON-EMPTY string, the
engine reports the shortest non-empty string of Dz, ties among equal-length
strings broken lexicographically; symmetrically for Da = language(A) minus
language(Z). -/
theorem c1_minimal_witness_amended (pa pz : ParsedDFA) (a z : DFA)
    (ha : parsed_dfa_to_automaton pa = .ok a)
    (hz : parsed_dfa_to_automaton pz = .ok z) :
    ((∃ w, w ≠ [] ∧ acceptsWord z w = true ∧ acceptsWord a w = false) →
      ∃ w0, witnessOnlyZ a z = some w0 ∧ w0 ≠ [] ∧ acceptsWord z w0 = true ∧
        acceptsWord a w0 = false ∧
        ∀ w, w ≠ [] → acceptsWord z w = true → acceptsWord a w = false →
          shortlexLe w0 w) ∧
    ((∃ w, w ≠ [] ∧ acceptsWord a w = true ∧ acceptsWord z w = false) →
      ∃ w0, witnessOnlyA a z = some w0 ∧ w0 ≠ [] ∧ acceptsWord a w0 = true ∧
        acceptsWord z w0 = false ∧
        ∀ w, w ≠ [] → acceptsWord a w = true → acceptsWord z w = false →
          shortlexLe w0 w) := by
  constructor
  · intro hne
    exact witness_core pz pa z a hz ha (unionAlpha a z) (finsetAsc_pairwise _)
      (fun c hc => (finsetAsc_mem _ c).mpr (Finset.mem_union_right _ hc)) hne
  · intro hne
    exact witness_core pa pz a z ha hz (unionAlpha a z) (finsetAsc_pairwise _)
      (fun c hc => (finsetAsc_mem _ c).mpr (Finset.mem_union_left _ hc)) hne

/-- C1 witness: on the built automata of `pdfaWA` (language `{a}`) and
`pdfaWZ` (language `{aa}`) both difference witnesses are reported
minimally. -/
theorem c1_minimal_witness_amended_witness :
    (∃ w0, witnessOnlyZ dfaWA dfaWZ = some w0 ∧ w0 ≠ [] ∧
      acceptsWord dfaWZ w0 = true ∧ acceptsWord dfaWA w0 = false ∧
      ∀ w, w ≠ [] → acceptsWord dfaWZ w = true → acceptsWord dfaWA w = false →
        shortlexLe w0 w) ∧
    (∃ w0, witnessOnlyA dfaWA dfaWZ = some w0 ∧ w0 ≠ [] ∧
      acceptsWord dfaWA w0 = true ∧ acceptsWord dfaWZ w0 = false ∧
      ∀ w, w ≠ [] → acceptsWord dfaWA w = true → acceptsWord dfaWZ w = false →
        shortlexLe w0 w) := by
  have h := c1_minimal_witness_amended pdfaWA pdfaWZ dfaWA dfaWZ rfl rfl
  exact ⟨h.1 ⟨[97, 97], by decide, by decide, by decide⟩,
         h.2 ⟨[97], by decide, by decide, by decide⟩⟩

/-! #### The two equivalence computations of main agree -/

theorem unionAlpha_comm (a z : DFA) : unionAlpha a z = unionAlpha z a := by
  unfold unionAlpha
  rw [Finset.union_comm]

theorem diff_self_union_empty (a z : DFA) (al : List Nat) (bound : Nat) :
    isemptyMach (mdiff (toMach a) (unionDFA a z)) al bound = true := by
  apply isemptyMach_true_of_never
  intro w
  rw [mdiff_accepts, unionDFA_accepts]
  show (acceptsWord a w && !(acceptsWord a w || acceptsWord z w)) = false
  cases acceptsWord a w <;> cases acceptsWord z w <;> rfl

theorem union_diff_closed (pa pz : ParsedDFA) (a z : DFA)
    (ha : parsed_dfa_to_automaton pa = .ok a)
    (hz : parsed_dfa_to_automaton pz = .ok z) :
    MachClosed (mdiff (unionDFA a z) (toMach a))
      ((reachOf a ×ˢ reachOf z) ×ˢ reachOf a) :=
  prod_closed _ _ _ _ _
    (prod_closed _ _ _ _ _ (toMach_closed pa a ha) (toMach_closed pz z hz))
    (toMach_closed pa a ha)

theorem union_diff_card (a z : DFA) :
    ((reachOf a ×ˢ reachOf z) ×ˢ reachOf a).card = uBound a z := by
  rw [Finset.card_product, Finset.card_product, reachOf_card, reachOf_card]
  rfl

theorem union_diff_accepts (a z : DFA) (w : List Nat) :
    (mdiff (unionDFA a z) (toMach a)).accepts w
      = ((acceptsWord a w || acceptsWord z w) && !(acceptsWord a w)) := by
  rw [mdiff_accepts, unionDFA_accepts]
  rfl

theorem union_diff_eq_diff (pa pz : ParsedDFA) (a z : DFA)
    (ha : parsed_dfa_to_automaton pa = .ok a)
    (hz : parsed_dfa_to_automaton pz = .ok z) :
    isemptyMach (mdiff (unionDFA a z) (toMach a)) (unionAlpha a z) (uBound a z)
      = isemptyMach (diffDFA z a) (unionAlpha a z) (diffBound z a) := by
  have hconfU : ∀ w, (mdiff (unionDFA a z) (toMach a)).accepts w = true →
      ∀ c ∈ w, c ∈ unionAlpha a z := by
    intro w hacc c hc
    rw [union_diff_accepts, Bool.and_eq_true, Bool.or_eq_true] at hacc
    rcases hacc with ⟨hA | hZ, -⟩
    · exact (finsetAsc_mem _ c).mpr (Finset.mem_union_left _
        (acceptsWord_symbols pa a ha w hA c hc))
    · exact (finsetAsc_mem _ c).mpr (Finset.mem_union_right _
        (acceptsWord_symbols pz z hz w hZ c hc))
  have hconfD := diffDFA_conf pz z a hz (unionAlpha a z)
    (fun c hc => (finsetAsc_mem _ c).mpr (Finset.mem_union_right _ hc))
  have h1 := isemptyMach_iff (mdiff (unionDFA a z) (toMach a)) _
    (union_diff_closed pa pz a z ha hz) (unionAlpha a z) hconfU (uBound a z)
    (le_of_eq (union_diff_card a z))
  have h2 := isemptyMach_iff (diffDFA z a) _ (diffDFA_closed pz pa z a hz ha)
    (unionAlpha a z) hconfD (diffBound z a) (le_of_eq (diffDFA_card z a))
  rw [Bool.eq_iff_iff, h1, h2]
  constructor
  · intro h w
    have hw := h w
    rw [union_diff_accepts] at hw
    rw [diffDFA_accepts]
    revert hw
    cases acceptsWord a w <;> cases acceptsWord z w <;> simp
  · intro h w
    have hw := h w
    rw [diffDFA_accepts] at hw
    rw [union_diff_accepts]
    revert hw
    cases acceptsWord a w <;> cases acceptsWord z w <;> simp

theorem equivs_eq (pa pz : ParsedDFA) (a z : DFA)
    (ha : parsed_dfa_to_automaton pa = .ok a)
    (hz : parsed_dfa_to_automaton pz = .ok z) :
    equivUnionBased a z = equivDiffBased a z := by
  unfold equivUnionBased equivDiffBased langEqU
  rw [diff_self_union_empty a z, diff_self_union_empty z a]
  rw [union_diff_eq_diff pa pz a z ha hz]
  have h2 := union_diff_eq_diff pz pa z a hz ha
  rw [unionAlpha_comm z a] at h2
  rw [unionAlpha_comm z a, h2]
  simp [Bool.and_comm]

/-- C5: for every pair of built automata, the union-based equivalence boolean
(`a.union(z) == a and z.union(a) == z`) always equals the difference-
emptiness boolean, and hence the comparison never halts with the
internal-consistency failure of the `assert` (the mechanism that would stop
it if they ever disagreed). -/
theorem c5_equivalence_crosscheck (pa pz : ParsedDFA) (a z : DFA)
    (ha : parsed_dfa_to_automaton pa = .ok a)
    (hz : parsed_dfa_to_automaton pz = .ok z) :
    equivUnionBased a z = equivDiffBased a z ∧
    isConsistencyFailure (compareAutomata a z) = false := by
  have h := equivs_eq pa pz a z ha hz
  refine ⟨h, ?_⟩
  unfold compareAutomata
  rw [if_pos h]
  rfl

/-- C5 witness: the cross-check evaluated on a concrete built automaton
compared with itself. -/
theorem c5_equivalence_crosscheck_witness :
    equivUnionBased dfaOkEx dfaOkEx = equivDiffBased dfaOkEx dfaOkEx ∧
    isConsistencyFailure (compareAutomata dfaOkEx dfaOkEx) = false :=
  c5_equivalence_crosscheck pdfaOkEx pdfaOkEx dfaOkEx dfaOkEx rfl rfl

/-! #### Claims about the Graph Parser's label handling -/

/-- C7 evidence (code bug): the source's accept-marker constant is the
misspelled `"yyacept="`, so a token beginning with the documented marker
`"yyaccept="` that contains a bracket is NOT skipped — it reaches the
Character Range Decoder, whose `ord` of a multi-character string raises
(`TypeError`), aborting the parse instead of contributing no codes; the same
token spelled as in the source IS skipped; a bracketless `"yyaccept=1"` token
is ignored only because of the bracket filter. -/
theorem c7_accept_marker_divergence :
    (parse_edge_label "yyaccept=[0x30]".toList).toOption = none ∧
    (parse_edge_label "yyacept=[0x30]".toList).toOption = some (∅ : Finset Nat) ∧
    (parse_edge_label "yyaccept=1".toList).toOption = some (∅ : Finset Nat) := by
  refine ⟨by decide, by decide, by decide⟩

/-! #### Reversed range bounds decode to the same set -/

theorem hexDigit_not_sep (c : Char) (h : (hexDigitVal? c).isSome = true) :
    c ≠ '-' ∧ c ≠ '[' ∧ c ≠ ']' := by
  unfold hexDigitVal? at h
  split_ifs at h with h1 h2 h3
  · exact ⟨fun hc => by subst hc; exact absurd h1.1 (by decide),
           fun hc => by subst hc; exact absurd h1.2 (by decide),
           fun hc => by subst hc; exact absurd h1.2 (by decide)⟩
  · exact ⟨fun hc => by subst hc; exact absurd h2.1 (by decide),
           fun hc => by subst hc; exact absurd h2.1 (by decide),
           fun hc => by subst hc; exact absurd h2.1 (by decide)⟩
  · exact ⟨fun hc => by subst hc; exact absurd h3.1 (by decide),
           fun hc => by subst hc; exact absurd h3.2 (by decide),
           fun hc => by subst hc; exact absurd h3.2 (by decide)⟩
  · simp at h

theorem validEndpoint_facts (e : List Char) (h : validEndpointB e = true) :
    e ≠ [] ∧ ('-' ∉ e) ∧ (']' ∉ e) ∧ ('[' ∉ e) ∧ ∃ v, pEndpoint e = .ok v := by
  match e with
  | [] => simp [validEndpointB] at h
  | [c] =>
    simp only [validEndpointB, Bool.not_eq_true', Bool.or_eq_false_iff,
      decide_eq_false_iff_not] at h
    obtain ⟨⟨hc1, hc2⟩, hc3⟩ := h
    refine ⟨by simp, fun hm => hc1 (List.mem_singleton.mp hm).symm,
      fun hm => hc3 (List.mem_singleton.mp hm).symm,
      fun hm => hc2 (List.mem_singleton.mp hm).symm, ⟨c.toNat, ?_⟩⟩
    unfold pEndpoint
    rw [if_neg (by simp [List.isPrefixOf])]
  | [c1, c2] => simp [validEndpointB] at h
  | [c1, c2, c3] => simp [validEndpointB] at h
  | [c1, c2, d1, d2] =>
    simp only [validEndpointB, Bool.and_eq_true, decide_eq_true_eq] at h
    obtain ⟨⟨⟨hc1, hc2⟩, hd1s⟩, hd2s⟩ := h
    subst hc1
    subst hc2
    have hd1 := hexDigit_not_sep d1 hd1s
    have hd2 := hexDigit_not_sep d2 hd2s
    obtain ⟨v1, hv1⟩ := Option.isSome_iff_exists.mp hd1s
    obtain ⟨v2, hv2⟩ := Option.isSome_iff_exists.mp hd2s
    refine ⟨by simp, ?_, ?_, ?_, ?_⟩
    · intro hm
      simp only [List.mem_cons, List.not_mem_nil, or_false] at hm
      rcases hm with hx | hx | hx | hx
      · exact absurd hx (by decide)
      · exact absurd hx (by decide)
      · exact hd1.1 hx.symm
      · exact hd2.1 hx.symm
    · intro hm
      simp only [List.mem_cons, List.not_mem_nil, or_false] at hm
      rcases hm with hx | hx | hx | hx
      · exact absurd hx (by decide)
      · exact absurd hx (by decide)
      · exact hd1.2.2 hx.symm
      · exact hd2.2.2 hx.symm
    · intro hm
      simp only [List.mem_cons, List.not_mem_nil, or_false] at hm
      rcases hm with hx | hx | hx | hx
      · exact absurd hx (by decide)
      · exact absurd hx (by decide)
      · exact hd1.2.1 hx.symm
      · exact hd2.2.1 hx.symm
    · refine ⟨v1 * 16 + v2, ?_⟩
      unfold pEndpoint
      rw [if_pos (by simp [List.isPrefixOf])]
      show parseHex [d1, d2] = _
      unfold parseHex parseHexDigits
      simp [hv1, hv2]
  | c1 :: c2 :: c3 :: c4 :: c5 :: rest => simp [validEndpointB] at h

theorem stripBrackets_wrap (c0 b : Char) (mid : List Char)
    (h0 : isBrk c0 = false) (hb : isBrk b = false) :
    stripBrackets ('[' :: ((c0 :: mid) ++ [b] ++ [']'])) = (c0 :: mid) ++ [b] := by
  unfold stripBrackets
  rw [List.dropWhile_cons, if_pos (by decide)]
  rw [show (c0 :: mid) ++ [b] ++ [']'] = c0 :: (mid ++ [b] ++ [']']) from by simp]
  rw [List.dropWhile_cons, if_neg (by simp [h0])]
  rw [show c0 :: (mid ++ [b] ++ [']']) = ((c0 :: mid) ++ [b]) ++ [']'] from by simp]
  rw [List.reverse_concat]
  rw [List.dropWhile_cons, if_pos (by decide)]
  rw [List.reverse_concat]
  rw [List.dropWhile_cons, if_neg (by simp [hb])]
  rw [List.reverse_cons, List.reverse_reverse]

theorem splitBrk_no_sep (l : List Char) (h : ']' ∉ l) : splitBrk l = [l] := by
  induction l with
  | nil => rfl
  | cons c rest ih =>
    have hc : c ≠ ']' := fun hh => h (hh ▸ List.mem_cons_self c rest)
    have hrest : ']' ∉ rest := fun hh => h (List.mem_cons_of_mem c hh)
    cases rest with
    | nil => rfl
    | cons c2 rest2 =>
      have hcond : ¬(c = ']' ∧ c2 = '[') := fun hx => hc hx.1
      rw [show splitBrk (c :: c2 :: rest2)
          = if c = ']' ∧ c2 = '[' then [] :: splitBrk rest2
            else match splitBrk (c2 :: rest2) with
              | [] => [[c]]
              | r :: rs => (c :: r) :: rs from rfl]
      rw [if_neg hcond, ih hrest]

theorem splitDash_no_dash (l : List Char) (h : '-' ∉ l) : splitDash l = [l] := by
  induction l with
  | nil => rfl
  | cons c rest ih =>
    have hc : c ≠ '-' := fun hh => h (hh ▸ List.mem_cons_self c rest)
    have hrest : '-' ∉ rest := fun hh => h (List.mem_cons_of_mem c hh)
    rw [show splitDash (c :: rest)
        = if c = '-' then [] :: splitDash rest
          else match splitDash rest with
            | [] => [[c]]
            | r :: rs => (c :: r) :: rs from rfl]
    rw [if_neg hc, ih hrest]

theorem splitDash_append (a b : List Char) (ha : '-' ∉ a) (hb : '-' ∉ b) :
    splitDash (a ++ '-' :: b) = [a, b] := by
  induction a with
  | nil =>
    rw [show splitDash ([] ++ '-' :: b)
        = if ('-' : Char) = '-' then [] :: splitDash b
          else match splitDash b with
            | [] => [['-']]
            | r :: rs => ('-' :: r) :: rs from rfl]
    rw [if_pos rfl, splitDash_no_dash b hb]
  | cons c a2 ih =>
    have hc : c ≠ '-' := fun hh => ha (hh ▸ List.mem_cons_self c a2)
    have ha2 : '-' ∉ a2 := fun hh => ha (List.mem_cons_of_mem c hh)
    rw [show (c :: a2) ++ '-' :: b = c :: (a2 ++ '-' :: b) from rfl]
    rw [show splitDash (c :: (a2 ++ '-' :: b))
        = if c = '-' then [] :: splitDash (a2 ++ '-' :: b)
          else match splitDash (a2 ++ '-' :: b) with
            | [] => [[c]]
            | r :: rs => (c :: r) :: rs from rfl]
    rw [if_neg hc, ih ha2]

theorem parse_range_pair (e1 e2 : List Char)
    (h1 : validEndpointB e1 = true) (h2 : validEndpointB e2 = true) :
    ∃ v1 v2, pEndpoint e1 = .ok v1 ∧ pEndpoint e2 = .ok v2 ∧
      parse_char_ranges ('[' :: ((e1 ++ '-' :: e2) ++ [']']))
        = .ok (Finset.Icc (min v1 v2) (max v1 v2)) := by
  obtain ⟨hne1, hd1, hbr1, hbl1, v1, hv1⟩ := validEndpoint_facts e1 h1
  obtain ⟨hne2, hd2, hbr2, hbl2, v2, hv2⟩ := validEndpoint_facts e2 h2
  refine ⟨v1, v2, hv1, hv2, ?_⟩
  obtain ⟨c0, e1t, rfl⟩ : ∃ c0 e1t, e1 = c0 :: e1t := by
    cases e1 with
    | nil => exact absurd rfl hne1
    | cons c l => exact ⟨c, l, rfl⟩
  obtain ⟨E, b, rfl⟩ : ∃ E b, e2 = E ++ [b] := by
    rcases List.eq_nil_or_concat e2 with hnil | ⟨L, x, hx⟩
    · exact absurd hnil hne2
    · exact ⟨L, x, by rw [hx, List.concat_eq_append]⟩
  have h0brk : isBrk c0 = false := by
    have hx1 : c0 ≠ '[' := fun hh => hbl1 (hh ▸ List.mem_cons_self c0 e1t)
    have hx2 : c0 ≠ ']' := fun hh => hbr1 (hh ▸ List.mem_cons_self c0 e1t)
    simp [isBrk, hx1, hx2]
  have hbbrk : isBrk b = false := by
    have hmem : b ∈ E ++ [b] := by simp
    have hx1 : b ≠ '[' := fun hh => hbl2 (hh ▸ hmem)
    have hx2 : b ≠ ']' := fun hh => hbr2 (hh ▸ hmem)
    simp [isBrk, hx1, hx2]
  have hstrip : stripBrackets ('[' :: (((c0 :: e1t) ++ '-' :: (E ++ [b])) ++ [']']))
      = (c0 :: e1t) ++ '-' :: (E ++ [b]) := by
    have := stripBrackets_wrap c0 b (e1t ++ '-' :: E) h0brk hbbrk
    rw [show (c0 :: (e1t ++ '-' :: E)) ++ [b] ++ [']']
        = ((c0 :: e1t) ++ '-' :: (E ++ [b])) ++ [']'] from by simp] at this
    rw [show (c0 :: (e1t ++ '-' :: E)) ++ [b]
        = (c0 :: e1t) ++ '-' :: (E ++ [b]) from by simp] at this
    exact this
  have hnosep : ']' ∉ (c0 :: e1t) ++ '-' :: (E ++ [b]) := by
    intro hm
    rcases List.mem_append.mp hm with hm1 | hm2
    · exact hbr1 hm1
    · rcases List.mem_cons.mp hm2 with hx | hm3
      · exact absurd hx (by decide)
      · exact hbr2 hm3
  have hgroup : parseGroup ((c0 :: e1t) ++ '-' :: (E ++ [b]))
      = .ok (Finset.Icc (min v1 v2) (max v1 v2)) := by
    unfold parseGroup
    rw [if_pos (by simp : '-' ∈ (c0 :: e1t) ++ '-' :: (E ++ [b]))]
    rw [splitDash_append (c0 :: e1t) (E ++ [b]) hd1 hd2]
    show (do
      let x ← pEndpoint (c0 :: e1t)
      let y ← pEndpoint (E ++ [b])
      pure (Finset.Icc (min x y) (max x y)) : Except String (Finset Nat)) = _
    rw [hv1, hv2]
    rfl
  unfold parse_char_ranges
  rw [hstrip, splitBrk_no_sep _ hnosep]
  simp only [List.foldlM_cons, List.foldlM_nil]
  rw [hgroup]
  show Except.ok ((∅ : Finset Nat) ∪ Finset.Icc (min v1 v2) (max v1 v2))
      = Except.ok (Finset.Icc (min v1 v2) (max v1 v2))
  rw [Finset.empty_union]

/-- C9: for every pair of valid range endpoints, the Character Range Decoder
decodes the reversed-bound group to the same set of codes as the
ascending-order group, and the decode succeeds — hexadecimal and
literal-character endpoints may be freely mixed. -/
theorem c9_reversed_bounds (e1 e2 : List Char)
    (h1 : validEndpointB e1 = true) (h2 : validEndpointB e2 = true) :
    parse_char_ranges ('[' :: ((e1 ++ '-' :: e2) ++ [']']))
      = parse_char_ranges ('[' :: ((e2 ++ '-' :: e1) ++ [']'])) ∧
    ∃ s, parse_char_ranges ('[' :: ((e1 ++ '-' :: e2) ++ [']'])) = .ok s := by
  obtain ⟨v1, v2, hv1, hv2, hp1⟩ := parse_range_pair e1 e2 h1 h2
  obtain ⟨v2b, v1b, hv2b, hv1b, hp2⟩ := parse_range_pair e2 e1 h2 h1
  rw [hv2] at hv2b
  rw [hv1] at hv1b
  rw [Except.ok.injEq] at hv2b hv1b
  subst hv2b
  subst hv1b
  refine ⟨?_, Finset.Icc (min v1 v2) (max v1 v2), hp1⟩
  rw [hp1, hp2, min_comm, max_comm]

/-- C9 witness: a hex endpoint and a literal endpoint mixed in one range,
with the larger bound first, decode identically in both orders. -/
theorem c9_reversed_bounds_witness :
    parse_char_ranges ('[' :: ((['0', 'x', '0', '0'] ++ '-' :: ['a']) ++ [']']))
      = parse_char_ranges ('[' :: ((['a'] ++ '-' :: ['0', 'x', '0', '0']) ++ [']'])) ∧
    ∃ s, parse_char_ranges ('[' :: ((['0', 'x', '0', '0'] ++ '-' :: ['a']) ++ [']']))
      = .ok s :=
  c9_reversed_bounds ['0', 'x', '0', '0'] ['a'] (by decide) (by decide)

/-- C8: the Character Range Decoder returns these exact results: `"[b]"`
decodes to the singleton set containing 98; `"[0x00-0x03][0x05-0x07]"` decodes
to a set of 7 codes; `"[a-c][e-g]"` to 6 codes; `"[0x00-0xFF]"` to 256 codes;
`"[0x00-a][c-0xFF]"` to 255 codes. -/
theorem c8_decoder_values :
    (parse_char_ranges "[b]".toList).toOption = some ({98} : Finset Nat) ∧
    ((parse_char_ranges "[0x00-0x03][0x05-0x07]".toList).toOption.map Finset.card) = some 7 ∧
    ((parse_char_ranges "[a-c][e-g]".toList).toOption.map Finset.card) = some 6 ∧
    ((parse_char_ranges "[0x00-0xFF]".toList).toOption.map Finset.card) = some 256 ∧
    ((parse_char_ranges "[0x00-a][c-0xFF]".toList).toOption.map Finset.card) = some 255 := by
  refine ⟨?_, ?_, ?_, ?_, ?_⟩ <;> decide

end Equivcheck
